import Mathlib

/-!
# Verification of `infection_coloured.py`

Shallow embedding of the infection-propagation / path-finding program.

The program keeps one mutable object of class `Infection`; we model it as a
structure threaded through pure functions.  Randomness is modelled
adversarially: `draws : Nat → ℚ` is the stream of `random.random()` samples
(the program draws one per call to `infect`, indexed by a counter threaded in
the second component of `Infection × Nat`), and `chooser : Nat → Nat` resolves
each `random.choice` over the current seeding pool by selecting an index into
it (modulo its length).  Quantifying over all `draws`/`chooser` covers every
possible sequence of random draws and every iteration order of the Python
`set` the pool is stored in.

Floats are modelled as rationals; the comparisons the program performs
(`random.random() <= ir`, `math.floor(size * seed)`) are exact on the inputs
the claims are about.
-/

/-- State of the Python `Infection` object.  `self.infected` is a dict with
keys `0 .. size-1`, all present from `__init__` on; we model it as a total
function (queries outside `[0, size)` never happen in the program). -/
structure Infection where
  rows : Nat
  cols : Nat
  seed : ℚ
  risk : ℚ
  iterations : Nat
  generation : Nat
  infected : Nat → Option Nat

/-- `self.size = rows * cols` (set once in `__init__`, never mutated). -/
def Infection.size (s : Infection) : Nat := s.rows * s.cols

/-- `Infection.__init__`: every cell starts uninfected, generation 0. -/
def Infection.init (rows cols : Nat) (seed risk : ℚ) (iterations : Nat) : Infection :=
  { rows := rows, cols := cols, seed := seed, risk := risk, iterations := iterations,
    generation := 0, infected := fun _ => none }

/-- `Infection.infect(self, pos, risk=None)`:

    ir = self.risk if risk is None else risk
    if random.random() <= ir and pos not in {0, self.size - 1}:
        self.infected[pos] = self.generation

One sample is consumed on every call (the comparison is evaluated first), so
the draw counter advances in both branches.  Note the test is `<=` (not `<`)
and there is no check that `pos` is currently uninfected. -/
def Infection.infect (draws : Nat → ℚ) (p : Infection × Nat) (pos : Nat)
    (risk : Option ℚ) : Infection × Nat :=
  let st := p.1
  let ir := risk.getD st.risk
  if draws p.2 ≤ ir ∧ pos ≠ 0 ∧ pos ≠ st.size - 1 then
    ({ st with infected := Function.update st.infected pos (some st.generation) }, p.2 + 1)
  else
    (st, p.2 + 1)

/-- `Infection.get_neighbours(self, pos)`: the dict `{'u': up, 'd': down,
'l': left, 'r': right}`, each entry `None` when the move crosses the grid
edge.  Python dict literals iterate in insertion order, so we keep the list
in the order `u, d, l, r`. -/
def Infection.get_neighbours (s : Infection) (pos : Nat) : List (Option Nat) :=
  let up := if pos < s.cols then none else some (pos - s.cols)
  let down := if s.size ≤ pos + s.cols then none else some (pos + s.cols)
  let left := if pos % s.cols = 0 then none else some (pos - 1)
  let right := if (pos + 1) % s.cols = 0 then none else some (pos + 1)
  [up, down, left, right]

/-- The non-`None` neighbours of a cell, in `u, d, l, r` order. -/
def Infection.neighbourIds (s : Infection) (pos : Nat) : List Nat :=
  (s.get_neighbours pos).filterMap id

/-- Body of the `for pos, gen in self.infected.items()` loop in
`Infection.propagate`, at one key `pos`.  The Python loop reads the live
dict while `infect` mutates its values, which is exactly what folding the
threaded state gives us. -/
def Infection.propagateCell (draws : Nat → ℚ) (acc : Infection × Nat) (pos : Nat) :
    Infection × Nat :=
  match acc.1.infected pos with
  | none => acc
  | some gen =>
    if gen < acc.1.generation then
      (acc.1.get_neighbours pos).foldl
        (fun a ob =>
          match ob with
          | none => a
          | some n => Infection.infect draws a n none) acc
    else acc

/-- One iteration of the `while` loop in `Infection.propagate`:
`self.generation += 1` followed by the `for` over all dict keys (insertion
order `0 .. size-1`).  The `self.show_infection()` call is console I/O and
does not touch the state. -/
def Infection.propagateRound (draws : Nat → ℚ) (p : Infection × Nat) : Infection × Nat :=
  let st := { p.1 with generation := p.1.generation + 1 }
  (List.range st.size).foldl (Infection.propagateCell draws) (st, p.2)

/-- The `while self.generation < self.iterations` loop.  Each round increases
`generation` by exactly one and never touches `iterations`, so running it with
fuel `iterations - generation` is the exact loop. -/
def Infection.propagateAux (draws : Nat → ℚ) : Nat → Infection × Nat → Infection × Nat
  | 0, p => p
  | fuel + 1, p =>
    if p.1.generation < p.1.iterations then
      Infection.propagateAux draws fuel (Infection.propagateRound draws p)
    else p

/-- `Infection.propagate(self)`. -/
def Infection.propagate (draws : Nat → ℚ) (p : Infection × Nat) : Infection × Nat :=
  Infection.propagateAux draws (p.1.iterations - p.1.generation) p

/-- The seeding pool of `Infection.spawn`:
`positions = set(self.infected.keys()); positions.difference_update({0, self.size - 1})`.
A Python `set` iterates in an unspecified order; we keep the pool as the
ascending list and let the adversarial `chooser` pick any element, which
covers every possible set order and every `random.choice` outcome. -/
def Infection.spawnPool (s : Infection) : List Nat :=
  (List.range s.size).filter (fun p => decide (p ≠ 0 ∧ p ≠ s.size - 1))

/-- `positions.remove(random_pos)` (the pool holds no duplicates). -/
def Infection.removeElem (l : List Nat) (x : Nat) : List Nat :=
  l.filter (fun y => decide (y ≠ x))

/-- The `for _ in range(math.floor(self.size * self.seed))` loop of
`Infection.spawn`.  `random.choice(tuple(positions))` raises `IndexError` on
an empty pool, which we model as `none`. -/
def Infection.spawnLoop (draws : Nat → ℚ) (chooser : Nat → Nat) :
    Nat → List Nat → Infection × Nat → Nat → Option (Infection × Nat)
  | 0, _pool, acc, _i => some acc
  | m + 1, pool, acc, i =>
    if h : pool = [] then none
    else
      let pos := pool.get ⟨chooser i % pool.length, Nat.mod_lt _ (List.length_pos.mpr h)⟩
      Infection.spawnLoop draws chooser m (Infection.removeElem pool pos)
        (Infection.infect draws acc pos (some 1)) (i + 1)

/-- `Infection.spawn(self)`: draw `math.floor(self.size * self.seed)` cells
from the pool, each passed to `self.infect(random_pos, 1)`. -/
def Infection.spawn (draws : Nat → ℚ) (chooser : Nat → Nat) (p : Infection × Nat) :
    Option (Infection × Nat) :=
  Infection.spawnLoop draws chooser (Nat.floor ((p.1.size : ℚ) * p.1.seed))
    (Infection.spawnPool p.1) p 0

/-- The `__main__` driver up to path finding: construct, `spawn`, `propagate`. -/
def Infection.run (rows cols : Nat) (seed risk : ℚ) (iterations : Nat)
    (draws : Nat → ℚ) (chooser : Nat → Nat) : Option (Infection × Nat) :=
  (Infection.spawn draws chooser (Infection.init rows cols seed risk iterations, 0)).map
    (Infection.propagate draws)

/-- `Infection.adjacency_list(self)` at one key: for each uninfected cell the
(`u, d, l, r` ordered) list of its uninfected neighbours.  The Python dict has
keys only for uninfected cells; a lookup at an infected key would raise
`KeyError`, which `bfs` never does, so the `else []` branch is unreachable
from `bfs`. -/
def Infection.adjacency_list (s : Infection) (pos : Nat) : List Nat :=
  if s.infected pos = none then
    (s.neighbourIds pos).filter (fun n => (s.infected n).isNone)
  else []

/-- The inner `for n in neighbours` loop of `Infection.bfs`: append
`path + [n]` to the queue, returning the new path as soon as `n == goal`. -/
def Infection.expandLoop (goal : Nat) (path : List Nat) :
    List Nat → List (List Nat) → Sum (List (List Nat)) (List Nat)
  | [], acc => Sum.inl acc
  | n :: ns, acc =>
    let new_path := path ++ [n]
    if n = goal then Sum.inr new_path
    else Infection.expandLoop goal path ns (acc ++ [new_path])

/-- The `while queue:` loop of `Infection.bfs`, fuelled (one unit per pop).
Paths in the queue are nonempty start-anchored paths; `path[-1]` on an empty
path would raise in Python, so that branch (unreachable) returns `none`. -/
def Infection.bfsAux (s : Infection) (goal : Nat) :
    Nat → List (List Nat) → List Nat → Option (List Nat)
  | 0, _, _ => none
  | _fuel + 1, [], _visited => none
  | fuel + 1, path :: rest, visited =>
    match path.getLast? with
    | none => none
    | some cell =>
      if cell ∈ visited then Infection.bfsAux s goal fuel rest visited
      else
        match Infection.expandLoop goal path (s.adjacency_list cell) rest with
        | Sum.inr found => some found
        | Sum.inl q2 => Infection.bfsAux s goal fuel q2 (visited ++ [cell])

/-- Fuel bound for `bfs`: at most `size` pops expand (each marks a fresh cell
visited) contributing at most `4` queue entries each, plus the initial entry;
every pop consumes one unit. -/
def Infection.bfsFuel (s : Infection) : Nat := 5 * s.size + 5

/-- `Infection.bfs(self)`: queue seeded with the single path `[0]`, goal
`self.size - 1`. -/
def Infection.bfs (s : Infection) : Option (List Nat) :=
  Infection.bfsAux s (s.size - 1) s.bfsFuel [[0]] []

/-- `path[pos] = (i, j)` on the `OrderedDict` of `Infection.compute_path`:
re-inserting an existing key updates the value in place; a new key is
appended. -/
def Infection.odInsert (l : List (Nat × (Nat × Nat))) (k : Nat) (v : Nat × Nat) :
    List (Nat × (Nat × Nat)) :=
  if l.any (fun q => q.1 == k) then
    l.map (fun q => if q.1 == k then (k, v) else q)
  else l ++ [(k, v)]

/-- `Infection.compute_path(self)`: the printed coordinate sequence.  Note the
source computes `i = math.floor(pos / self.rows)` — it divides by `rows`,
while `j = pos % self.cols`. -/
def Infection.compute_path (s : Infection) : Option (List (Nat × Nat)) :=
  s.bfs.map (fun route =>
    (route.foldl (fun acc pos => Infection.odInsert acc pos (pos / s.rows, pos % s.cols)) []).map
      Prod.snd)

/-- Number of infected cells of the grid. -/
def Infection.countInfected (s : Infection) : Nat :=
  ((Finset.range s.size).filter (fun q => s.infected q ≠ none)).card

/-- Ghost-instrumented `propagateCell`: identical to `propagateCell` but also
logs every transmission attempt as a pair `(transmitter, target)`. -/
def Infection.propagateCellT (draws : Nat → ℚ) (acc : Infection × Nat × List (Nat × Nat))
    (pos : Nat) : Infection × Nat × List (Nat × Nat) :=
  match acc.1.infected pos with
  | none => acc
  | some gen =>
    if gen < acc.1.generation then
      (acc.1.get_neighbours pos).foldl
        (fun a ob =>
          match ob with
          | none => a
          | some n =>
            let r := Infection.infect draws (a.1, a.2.1) n none
            (r.1, r.2, a.2.2 ++ [(pos, n)])) acc
    else acc

/-- Ghost-instrumented `propagateRound` (same state evolution, plus the log of
attempts made during the round). -/
def Infection.propagateRoundT (draws : Nat → ℚ) (p : Infection × Nat × List (Nat × Nat)) :
    Infection × Nat × List (Nat × Nat) :=
  let st := { p.1 with generation := p.1.generation + 1 }
  (List.range st.size).foldl (Infection.propagateCellT draws) (st, p.2.1, p.2.2)

/-- A path of the BFS search graph: starts at cell `0` and each step follows
the adjacency list (so every step lands on an uninfected grid neighbour). -/
def Infection.GPath (s : Infection) (p : List Nat) : Prop :=
  p.head? = some 0 ∧ List.Chain' (fun a b => b ∈ s.adjacency_list a) p

/-- A route in the sense of the specification: starts at the start corner,
ends at the goal corner, consecutive entries are 4-adjacent grid neighbours,
and every entry is uninfected. -/
def Infection.IsRoute (s : Infection) (q : List Nat) : Prop :=
  q.head? = some 0 ∧ q.getLast? = some (s.size - 1) ∧
    List.Chain' (fun a b => b ∈ s.neighbourIds a) q ∧ ∀ c ∈ q, s.infected c = none

/-- The all-zero draw stream (every sample is `0.0`, the smallest value
`random.random()` can return). -/
def zeroDraws : Nat → ℚ := fun _ => 0

/-- The chooser that always takes the first element of the pool. -/
def zeroChooser : Nat → Nat := fun _ => 0

/-- Both corner cells are uninfected (the property the corner-immunity
invariant asserts of every reachable state). -/
def Infection.cornersOK (s : Infection) : Prop :=
  s.infected 0 = none ∧ s.infected (s.size - 1) = none

theorem foldl_invariant {α β : Type} (P : α → Prop) (f : α → β → α)
    (h : ∀ x b, P x → P (f x b)) :
    ∀ (l : List β) (a : α), P a → P (l.foldl f a) := by
  intro l
  induction l with
  | nil => intro a ha; exact ha
  | cons b t ih => intro a ha; exact ih _ (h a b ha)

theorem Infection.infect_shape (draws : Nat → ℚ) (p : Infection × Nat) (pos : Nat)
    (r : Option ℚ) :
    (Infection.infect draws p pos r).1.rows = p.1.rows ∧
    (Infection.infect draws p pos r).1.cols = p.1.cols ∧
    (Infection.infect draws p pos r).1.generation = p.1.generation ∧
    (Infection.infect draws p pos r).1.iterations = p.1.iterations ∧
    (Infection.infect draws p pos r).1.risk = p.1.risk ∧
    (Infection.infect draws p pos r).1.seed = p.1.seed := by
  simp only [Infection.infect]
  split <;> simp

theorem Infection.infect_size (draws : Nat → ℚ) (p : Infection × Nat) (pos : Nat)
    (r : Option ℚ) : (Infection.infect draws p pos r).1.size = p.1.size := by
  have h := Infection.infect_shape draws p pos r
  simp only [Infection.size, h.1, h.2.1]

/-- `infect` either leaves a cell alone or (only at a non-corner `pos`) writes
the current generation there. -/
theorem Infection.infect_infected (draws : Nat → ℚ) (p : Infection × Nat) (pos : Nat)
    (r : Option ℚ) (q : Nat) :
    (Infection.infect draws p pos r).1.infected q = p.1.infected q ∨
      (q = pos ∧ pos ≠ 0 ∧ pos ≠ p.1.size - 1 ∧
        (Infection.infect draws p pos r).1.infected q = some p.1.generation) := by
  by_cases h : draws p.2 ≤ r.getD p.1.risk ∧ pos ≠ 0 ∧ pos ≠ p.1.size - 1
  · rcases eq_or_ne q pos with hq | hq
    · subst hq
      refine Or.inr ⟨rfl, h.2.1, h.2.2, ?_⟩
      simp only [Infection.infect, if_pos h]
      simp [Function.update]
    · refine Or.inl ?_
      simp only [Infection.infect, if_pos h]
      simp [Function.update, hq]
  · refine Or.inl ?_
    simp only [Infection.infect, if_neg h]

theorem Infection.infect_cornersOK (draws : Nat → ℚ) (p : Infection × Nat) (pos : Nat)
    (r : Option ℚ) (h : p.1.cornersOK) : (Infection.infect draws p pos r).1.cornersOK := by
  have hsz := Infection.infect_size draws p pos r
  constructor
  · rcases Infection.infect_infected draws p pos r 0 with h0 | ⟨h0, hne, _, _⟩
    · rw [h0]; exact h.1
    · exact absurd h0.symm hne
  · rw [hsz]
    rcases Infection.infect_infected draws p pos r (p.1.size - 1) with h0 | ⟨h0, _, hne, _⟩
    · rw [h0]; exact h.2
    · exact absurd h0.symm hne

/-- Invariants preserved by `infect` and by bumping the generation counter are
preserved by `propagateCell`. -/
theorem Infection.propagateCell_invariant (P : Infection × Nat → Prop) (draws : Nat → ℚ)
    (hstep : ∀ p pos r, P p → P (Infection.infect draws p pos r)) (acc : Infection × Nat)
    (pos : Nat) (h : P acc) : P (Infection.propagateCell draws acc pos) := by
  simp only [Infection.propagateCell]
  cases acc.1.infected pos with
  | none => exact h
  | some gen =>
    simp only []
    split
    · refine foldl_invariant P _ ?_ _ _ h
      intro a ob ha
      cases ob with
      | none => exact ha
      | some n => exact hstep a n none ha
    · exact h

theorem Infection.propagateRound_invariant (P : Infection × Nat → Prop) (draws : Nat → ℚ)
    (hstep : ∀ p pos r, P p → P (Infection.infect draws p pos r))
    (hgen : ∀ p : Infection × Nat, P p → P ({ p.1 with generation := p.1.generation + 1 }, p.2))
    (p : Infection × Nat) (h : P p) : P (Infection.propagateRound draws p) := by
  simp only [Infection.propagateRound]
  exact foldl_invariant P _ (fun a b ha => Infection.propagateCell_invariant P draws hstep a b ha)
    _ _ (hgen p h)

theorem Infection.propagateAux_invariant (P : Infection × Nat → Prop) (draws : Nat → ℚ)
    (hstep : ∀ p pos r, P p → P (Infection.infect draws p pos r))
    (hgen : ∀ p : Infection × Nat, P p → P ({ p.1 with generation := p.1.generation + 1 }, p.2)) :
    ∀ (fuel : Nat) (p : Infection × Nat), P p → P (Infection.propagateAux draws fuel p) := by
  intro fuel
  induction fuel with
  | zero => intro p h; exact h
  | succ n ih =>
    intro p h
    simp only [Infection.propagateAux]
    split
    · exact ih _ (Infection.propagateRound_invariant P draws hstep hgen p h)
    · exact h

theorem Infection.propagate_invariant (P : Infection × Nat → Prop) (draws : Nat → ℚ)
    (hstep : ∀ p pos r, P p → P (Infection.infect draws p pos r))
    (hgen : ∀ p : Infection × Nat, P p → P ({ p.1 with generation := p.1.generation + 1 }, p.2))
    (p : Infection × Nat) (h : P p) : P (Infection.propagate draws p) :=
  Infection.propagateAux_invariant P draws hstep hgen _ p h

theorem Infection.spawnLoop_invariant (P : Infection × Nat → Prop) (draws : Nat → ℚ)
    (chooser : Nat → Nat)
    (hstep : ∀ p pos r, P p → P (Infection.infect draws p pos r)) :
    ∀ (m : Nat) (pool : List Nat) (acc : Infection × Nat) (i : Nat) (q : Infection × Nat),
      Infection.spawnLoop draws chooser m pool acc i = some q → P acc → P q := by
  intro m
  induction m with
  | zero =>
    intro pool acc i q h hP
    simp only [Infection.spawnLoop, Option.some.injEq] at h
    exact h ▸ hP
  | succ m ih =>
    intro pool acc i q h hP
    simp only [Infection.spawnLoop] at h
    split at h
    · exact absurd h (by simp)
    · exact ih _ _ _ _ h (hstep _ _ _ hP)

theorem Infection.spawn_invariant (P : Infection × Nat → Prop) (draws : Nat → ℚ)
    (chooser : Nat → Nat)
    (hstep : ∀ p pos r, P p → P (Infection.infect draws p pos r))
    (p q : Infection × Nat) (h : Infection.spawn draws chooser p = some q) (hP : P p) : P q :=
  Infection.spawnLoop_invariant P draws chooser hstep _ _ _ _ _ h hP

/-- C5 helper: every state reachable by `run` keeps both corners uninfected
and keeps the constructor grid dimensions. -/
theorem Infection.run_cornersOK (rows cols : Nat) (seed risk : ℚ) (its : Nat)
    (draws : Nat → ℚ) (chooser : Nat → Nat) (q : Infection × Nat)
    (h : Infection.run rows cols seed risk its draws chooser = some q) :
    q.1.cornersOK ∧ q.1.rows = rows ∧ q.1.cols = cols := by
  have hstep : ∀ (p : Infection × Nat) pos r,
      (p.1.cornersOK ∧ p.1.rows = rows ∧ p.1.cols = cols) →
      ((Infection.infect draws p pos r).1.cornersOK ∧
        (Infection.infect draws p pos r).1.rows = rows ∧
        (Infection.infect draws p pos r).1.cols = cols) := by
    intro p pos r hp
    have hs := Infection.infect_shape draws p pos r
    exact ⟨Infection.infect_cornersOK draws p pos r hp.1, hs.1 ▸ hp.2.1, hs.2.1 ▸ hp.2.2⟩
  have hgen : ∀ (p : Infection × Nat),
      (p.1.cornersOK ∧ p.1.rows = rows ∧ p.1.cols = cols) →
      (({ p.1 with generation := p.1.generation + 1 }, p.2).1.cornersOK ∧
        ({ p.1 with generation := p.1.generation + 1 }, p.2).1.rows = rows ∧
        ({ p.1 with generation := p.1.generation + 1 }, p.2).1.cols = cols) := by
    intro p hp
    exact ⟨hp.1, hp.2.1, hp.2.2⟩
  simp only [Infection.run, Option.map_eq_some'] at h
  obtain ⟨mid, hmid, hprop⟩ := h
  have hinit : (Infection.init rows cols seed risk its).cornersOK ∧
      (Infection.init rows cols seed risk its).rows = rows ∧
      (Infection.init rows cols seed risk its).cols = cols := by
    exact ⟨⟨rfl, rfl⟩, rfl, rfl⟩
  have hmidP := Infection.spawn_invariant _ draws chooser hstep _ mid hmid hinit
  exact hprop ▸ Infection.propagate_invariant _ draws hstep hgen mid hmidP

/-- C5: for every valid input and every sequence of random draws, the start
cell (id `0`) and the goal cell (id `rows*cols - 1`) are never marked
infected, neither by seeding (`spawn`) nor by any propagation round of the
full run. -/
theorem c5_corner_immunity (rows cols : Nat) (seed risk : ℚ) (its : Nat)
    (draws : Nat → ℚ) (chooser : Nat → Nat) :
    (∀ p, Infection.spawn draws chooser (Infection.init rows cols seed risk its, 0) = some p →
      p.1.infected 0 = none ∧ p.1.infected (rows * cols - 1) = none) ∧
    (∀ p, Infection.run rows cols seed risk its draws chooser = some p →
      p.1.infected 0 = none ∧ p.1.infected (rows * cols - 1) = none) := by
  constructor
  · intro p hp
    have hstep : ∀ (x : Infection × Nat) pos r,
        (x.1.cornersOK ∧ x.1.rows = rows ∧ x.1.cols = cols) →
        ((Infection.infect draws x pos r).1.cornersOK ∧
          (Infection.infect draws x pos r).1.rows = rows ∧
          (Infection.infect draws x pos r).1.cols = cols) := by
      intro x pos r hx
      have hs := Infection.infect_shape draws x pos r
      exact ⟨Infection.infect_cornersOK draws x pos r hx.1, hs.1 ▸ hx.2.1, hs.2.1 ▸ hx.2.2⟩
    have hP := Infection.spawn_invariant _ draws chooser hstep _ p hp ⟨⟨rfl, rfl⟩, rfl, rfl⟩
    refine ⟨hP.1.1, ?_⟩
    have : p.1.size = rows * cols := by
      simp only [Infection.size, hP.2.1, hP.2.2]
    exact this ▸ hP.1.2
  · intro p hp
    obtain ⟨hc, hr, hco⟩ := Infection.run_cornersOK rows cols seed risk its draws chooser p hp
    refine ⟨hc.1, ?_⟩
    have : p.1.size = rows * cols := by simp only [Infection.size, hr, hco]
    exact this ▸ hc.2

/-- Rewriting helper: once the seeding count (the only rational-arithmetic
computation) is evaluated, `spawn` is the plain loop. -/
theorem Infection.spawn_eq_loop (draws : Nat → ℚ) (chooser : Nat → Nat)
    (p : Infection × Nat) (n : Nat) (h : Nat.floor ((p.1.size : ℚ) * p.1.seed) = n) :
    Infection.spawn draws chooser p =
      Infection.spawnLoop draws chooser n (Infection.spawnPool p.1) p 0 := by
  rw [Infection.spawn, h]

/-- C5 witness: a concrete 1×3 run (one propagation round), with both corners
uninfected at the end. -/
theorem c5_corner_immunity_witness :
    (Infection.run 1 3 0 1 1 zeroDraws zeroChooser).elim False
      (fun p => p.1.infected 0 = none ∧ p.1.infected (1 * 3 - 1) = none) := by
  have hfloor : Nat.floor (((Infection.init 1 3 0 1 1, (0 : Nat)).1.size : ℚ) *
      (Infection.init 1 3 0 1 1, (0 : Nat)).1.seed) = 0 := by
    norm_num [Infection.init, Infection.size]
  have hs : (Infection.run 1 3 0 1 1 zeroDraws zeroChooser).isSome = true := by
    simp only [Infection.run, Infection.spawn_eq_loop zeroDraws zeroChooser _ 0 hfloor]
    decide
  have h := Option.some_get hs
  rw [← h]
  exact (c5_corner_immunity 1 3 0 1 1 zeroDraws zeroChooser).2 _ h.symm

/-- C9: with `iterations = 0` the `while` loop of `propagate` never runs, so
the run is exactly the seeding step. -/
theorem c9_zero_round_identity (rows cols : Nat) (seed risk : ℚ)
    (draws : Nat → ℚ) (chooser : Nat → Nat) :
    Infection.run rows cols seed risk 0 draws chooser =
      Infection.spawn draws chooser (Infection.init rows cols seed risk 0, 0) := by
  cases h : Infection.spawn draws chooser (Infection.init rows cols seed risk 0, 0) with
  | none => simp [Infection.run, h]
  | some q =>
    have hstep : ∀ (x : Infection × Nat) pos r,
        (x.1.iterations = 0 ∧ x.1.generation = 0) →
        ((Infection.infect draws x pos r).1.iterations = 0 ∧
          (Infection.infect draws x pos r).1.generation = 0) := by
      intro x pos r hx
      have hs := Infection.infect_shape draws x pos r
      exact ⟨hs.2.2.2.1 ▸ hx.1, hs.2.2.1 ▸ hx.2⟩
    have hq := Infection.spawn_invariant _ draws chooser hstep _ q h ⟨rfl, rfl⟩
    have hpq : Infection.propagate draws q = q := by
      simp only [Infection.propagate, hq.1, hq.2]
      rfl
    simp [Infection.run, h, hpq]

/-- C1 (code bug): input `rows=1, cols=4, seed=1/2, risk=1, iterations=1`
with all samples `0.0` and the chooser taking the first pool element.
Seeding infects cells `1` and `2` with generation `0`; during round 1 the
transmission from cell `1` calls `infect(2)`, which does not test for prior
infection and overwrites cell `2`'s generation with `1`.  The final mapping
therefore does not record the round at which cell `2` was first infected. -/
theorem c1_generation_overwritten :
    (Infection.spawn zeroDraws zeroChooser (Infection.init 1 4 (1/2) 1 1, 0)).map
        (fun p => p.1.infected 2) = some (some 0) ∧
      (Infection.run 1 4 (1/2) 1 1 zeroDraws zeroChooser).map
        (fun p => p.1.infected 2) = some (some 1) := by
  have hfloor : Nat.floor (((Infection.init 1 4 (1/2) 1 1, (0 : Nat)).1.size : ℚ) *
      (Infection.init 1 4 (1/2) 1 1, (0 : Nat)).1.seed) = 2 := by
    norm_num [Infection.init, Infection.size]
  constructor
  · rw [Infection.spawn_eq_loop zeroDraws zeroChooser _ 2 hfloor]
    decide
  · simp only [Infection.run, Infection.spawn_eq_loop zeroDraws zeroChooser _ 2 hfloor]
    decide

/-- C2 (code bug): input `rows=1, cols=5, seed=2/5, risk=1, iterations=1`,
all samples `0.0`, chooser taking the first pool element.  Seeding infects
cells `1` and `2` (both generation `0`).  In round 1, processing cell `1`
overwrites cell `2`'s generation to `1` (live dict read, no
already-infected test), so when the round's iteration reaches cell `2` it
fails the `gen < generation` test and makes no transmission attempts at
all — even though it was infected in a prior round and, with `risk=1` and
these draws, an attempt would certainly have infected cell `3`.  Cell `3`
stays uninfected. -/
theorem c2_prior_infected_cell_makes_no_attempt :
    (Infection.spawn zeroDraws zeroChooser (Infection.init 1 5 (2/5) 1 1, 0)).map
        (fun p => (p.1.infected 2, p.1.infected 3)) = some (some 0, none) ∧
      (Infection.run 1 5 (2/5) 1 1 zeroDraws zeroChooser).map
        (fun p => (p.1.infected 2, p.1.infected 3)) = some (some 1, none) := by
  have hfloor : Nat.floor (((Infection.init 1 5 (2/5) 1 1, (0 : Nat)).1.size : ℚ) *
      (Infection.init 1 5 (2/5) 1 1, (0 : Nat)).1.seed) = 2 := by
    norm_num [Infection.init, Infection.size]
  constructor
  · rw [Infection.spawn_eq_loop zeroDraws zeroChooser _ 2 hfloor]
    decide
  · simp only [Infection.run, Infection.spawn_eq_loop zeroDraws zeroChooser _ 2 hfloor]
    decide

/-- C4 (code bug): input `rows=1, cols=5, seed=0, iterations=0`.  The route
found is `[0,1,2,3,4]`, but `compute_path` converts `pos` to
`(floor(pos / rows), pos mod cols)` — dividing by `rows` instead of `cols` —
so the program prints the pairs `(0,0), (1,1), (2,2), (3,3), (4,4)` instead
of the straight line `(0,0) .. (0,4)` of row `0`. -/
theorem c4_coordinates_divided_by_rows :
    (Infection.run 1 5 0 0 0 zeroDraws zeroChooser).map
        (fun p => (Infection.bfs p.1, Infection.compute_path p.1)) =
      some (some [0, 1, 2, 3, 4], some [(0,0), (1,1), (2,2), (3,3), (4,4)]) := by
  have hfloor : Nat.floor (((Infection.init 1 5 0 0 0, (0 : Nat)).1.size : ℚ) *
      (Infection.init 1 5 0 0 0, (0 : Nat)).1.seed) = 0 := by
    norm_num [Infection.init, Infection.size]
  simp only [Infection.run, Infection.spawn_eq_loop zeroDraws zeroChooser _ 0 hfloor]
  decide

/-- C10: on the 1×1 grid (start cell = goal cell = 0, uninfected), the
search returns the no-route outcome, not the single-cell route: the goal is
only ever detected as a neighbour of a dequeued cell, and cell 0 has no
neighbours. -/
theorem c10_one_by_one_no_route :
    (Infection.run 1 1 0 0 0 zeroDraws zeroChooser).map
        (fun p => (Infection.bfs p.1, Infection.compute_path p.1, p.1.infected 0)) =
      some (none, none, none) := by
  have hfloor : Nat.floor (((Infection.init 1 1 0 0 0, (0 : Nat)).1.size : ℚ) *
      (Infection.init 1 1 0 0 0, (0 : Nat)).1.seed) = 0 := by
    norm_num [Infection.init, Infection.size]
  simp only [Infection.run, Infection.spawn_eq_loop zeroDraws zeroChooser _ 0 hfloor]
  decide

/-- A 1×4 state whose cell 2 is already infected at generation 0, with the
current round counter at 1 and `risk = 0`. -/
def c6State : Infection :=
  { Infection.init 1 4 0 0 1 with
    generation := 1, infected := Function.update (fun _ => none) 2 (some 0) }

/-- C6 counterexample: `infect` against the already-infected cell 2, with
probability `risk = 0` and the drawn sample exactly `0.0`, is not a no-op:
the comparison is `sample <= probability` (so `0 <= 0` succeeds) and there
is no already-infected test, so the cell's generation is overwritten from
`0` to the current round `1`.  This refutes both the `<` comparison, the
no-op-on-infected clause and the probability-0-never-infects consequence of
the claim. -/
theorem c6_counterexample_overwrite_at_probability_zero :
    c6State.infected 2 = some 0 ∧ c6State.risk = 0 ∧
      (Infection.infect zeroDraws (c6State, 0) 2 none).1.infected 2 = some 1 := by
  refine ⟨by decide, by decide, by decide⟩

/-- C6 amended: `infect(pos, risk)` always consumes exactly one sample, and
sets `pos`'s generation to the current generation if and only if `pos` is
not a corner and the sample is `<=` the probability (`self.risk` when the
argument is `None`) — regardless of whether `pos` is already infected, whose
prior generation is overwritten; every other cell is untouched. -/
theorem c6_infect_amended (draws : Nat → ℚ) (p : Infection × Nat) (pos : Nat)
    (r : Option ℚ) (q : Nat) :
    (Infection.infect draws p pos r).1.infected q =
      (if q = pos ∧ draws p.2 ≤ r.getD p.1.risk ∧ pos ≠ 0 ∧ pos ≠ p.1.size - 1
        then some p.1.generation else p.1.infected q) ∧
      (Infection.infect draws p pos r).2 = p.2 + 1 := by
  constructor
  · by_cases h : draws p.2 ≤ r.getD p.1.risk ∧ pos ≠ 0 ∧ pos ≠ p.1.size - 1
    · simp only [Infection.infect, if_pos h]
      by_cases hq : q = pos
      · subst hq
        rw [if_pos ⟨rfl, h⟩]
        simp [Function.update]
      · rw [if_neg (fun hc => hq hc.1)]
        simp [Function.update, hq]
    · simp only [Infection.infect, if_neg h]
      rw [if_neg (fun hc => h hc.2)]
  · simp only [Infection.infect]
    split <;> rfl

/-- C7 counterexample: input `rows=1, cols=2, seed=1, risk=1, iterations=0`.
The requested count is `floor(2·1) = 2` but the eligible pool (all cells
except the two corners) is empty, so `random.choice` raises `IndexError`:
seeding fails instead of capping at the pool size. -/
theorem c7_counterexample_overcommit_fails :
    (Infection.spawn zeroDraws zeroChooser (Infection.init 1 2 1 1 0, 0)).isSome = false := by
  rw [Infection.spawn_eq_loop zeroDraws zeroChooser _ 2
    (by norm_num [Infection.init, Infection.size])]
  decide

/-- The instrumented neighbour fold agrees with the plain one after erasing
the log. -/
theorem Infection.foldNeighboursT_agree (draws : Nat → ℚ) (pos : Nat) :
    ∀ (l : List (Option Nat)) (a : Infection × Nat × List (Nat × Nat)),
      ((l.foldl (fun b ob =>
          match ob with
          | none => b
          | some n =>
            let r := Infection.infect draws (b.1, b.2.1) n none
            (r.1, r.2, b.2.2 ++ [(pos, n)])) a).1,
        (l.foldl (fun b ob =>
          match ob with
          | none => b
          | some n =>
            let r := Infection.infect draws (b.1, b.2.1) n none
            (r.1, r.2, b.2.2 ++ [(pos, n)])) a).2.1) =
      l.foldl (fun b ob =>
          match ob with
          | none => b
          | some n => Infection.infect draws b n none) (a.1, a.2.1) := by
  intro l
  induction l with
  | nil => intro a; rfl
  | cons ob t ih =>
    intro a
    cases ob with
    | none => exact ih a
    | some n => exact ih _

/-- The instrumented cell step agrees with `propagateCell` after erasing the
log. -/
theorem Infection.propagateCellT_agree (draws : Nat → ℚ)
    (acc : Infection × Nat × List (Nat × Nat)) (pos : Nat) :
    ((Infection.propagateCellT draws acc pos).1, (Infection.propagateCellT draws acc pos).2.1) =
      Infection.propagateCell draws (acc.1, acc.2.1) pos := by
  simp only [Infection.propagateCellT, Infection.propagateCell]
  cases h : acc.1.infected pos with
  | none => rfl
  | some gen =>
    simp only []
    split
    · exact Infection.foldNeighboursT_agree draws pos (acc.1.get_neighbours pos) acc
    · rfl

/-- The instrumented round agrees with `propagateRound` after erasing the
log. -/
theorem Infection.propagateRoundT_agree (draws : Nat → ℚ) (s : Infection) (k : Nat)
    (log : List (Nat × Nat)) :
    ((Infection.propagateRoundT draws (s, k, log)).1,
        (Infection.propagateRoundT draws (s, k, log)).2.1) =
      Infection.propagateRound draws (s, k) := by
  have main : ∀ (l : List Nat) (a : Infection × Nat × List (Nat × Nat)),
      ((l.foldl (Infection.propagateCellT draws) a).1,
        (l.foldl (Infection.propagateCellT draws) a).2.1) =
      l.foldl (Infection.propagateCell draws) (a.1, a.2.1) := by
    intro l
    induction l with
    | nil => intro a; rfl
    | cons pos t ih =>
      intro a
      simp only [List.foldl_cons]
      rw [ih (Infection.propagateCellT draws a pos), Infection.propagateCellT_agree draws a pos]
  simp only [Infection.propagateRoundT, Infection.propagateRound]
  exact main _ _

/-- C8: during one propagation round from state `s` (round number
`s.generation + 1`), every transmission attempt `(t, q)` recorded in the
round's log is made by a cell `t` that was already infected before the round
began, and every cell whose entry changes during the round is the target of
such an attempt.  Hence a cell first infected in round `r` never causes a
neighbour to become infected within round `r`; its attempts can take effect
only from round `r + 1` onward. -/
theorem c8_no_cascade_within_round (draws : Nat → ℚ) (s : Infection) (k : Nat) :
    (∀ tq ∈ (Infection.propagateRoundT draws (s, k, [])).2.2, s.infected tq.1 ≠ none) ∧
    (∀ q, (Infection.propagateRound draws (s, k)).1.infected q ≠ s.infected q →
      ∃ t, (t, q) ∈ (Infection.propagateRoundT draws (s, k, [])).2.2 ∧ s.infected t ≠ none) := by
  let P : Infection × Nat × List (Nat × Nat) → Prop := fun a =>
    a.1.generation = s.generation + 1 ∧
    (∀ q, a.1.infected q = s.infected q ∨ a.1.infected q = some (s.generation + 1)) ∧
    (∀ tq ∈ a.2.2, s.infected tq.1 ≠ none) ∧
    (∀ q, a.1.infected q ≠ s.infected q → ∃ t, (t, q) ∈ a.2.2 ∧ s.infected t ≠ none)
  have hcell : ∀ (a : Infection × Nat × List (Nat × Nat)) (pos : Nat),
      P a → P (Infection.propagateCellT draws a pos) := by
    intro a pos ha
    simp only [Infection.propagateCellT]
    cases hip : a.1.infected pos with
    | none => exact ha
    | some gen =>
      simp only []
      split
      case isTrue hlt =>
        have htrans : s.infected pos ≠ none := by
          rcases ha.2.1 pos with h1 | h1
          · rw [← h1, hip]; simp
          · rw [hip] at h1
            injection h1 with h1
            rw [ha.1] at hlt
            omega
        refine foldl_invariant P _ ?_ _ _ ha
        intro b ob hb
        cases ob with
        | none => exact hb
        | some n =>
          have hs := Infection.infect_shape draws (b.1, b.2.1) n none
          refine ⟨hs.2.2.1.trans hb.1, ?_, ?_, ?_⟩
          · intro q
            rcases Infection.infect_infected draws (b.1, b.2.1) n none q with h1 | ⟨_, _, _, h2⟩
            · rw [h1]; exact hb.2.1 q
            · right
              rw [h2, hb.1]
          · intro tq htq
            rcases List.mem_append.mp htq with h1 | h1
            · exact hb.2.2.1 tq h1
            · rw [List.mem_singleton.mp h1]
              exact htrans
          · intro q hq
            rcases Infection.infect_infected draws (b.1, b.2.1) n none q with h1 | ⟨hqn, _, _, _⟩
            · rw [h1] at hq
              obtain ⟨t, ht, hts⟩ := hb.2.2.2 q hq
              exact ⟨t, List.mem_append_left _ ht, hts⟩
            · subst hqn
              exact ⟨pos, List.mem_append_right _ (List.mem_singleton.mpr rfl), htrans⟩
      case isFalse => exact ha
  have hP0 : P ({ s with generation := s.generation + 1 }, k, ([] : List (Nat × Nat))) := by
    refine ⟨rfl, fun q => Or.inl rfl, by simp, fun q hq => absurd rfl hq⟩
  have hfold := foldl_invariant P (Infection.propagateCellT draws) hcell
    (List.range ({ s with generation := s.generation + 1 } : Infection).size) _ hP0
  have hrw : Infection.propagateRoundT draws (s, k, []) =
      (List.range ({ s with generation := s.generation + 1 } : Infection).size).foldl
        (Infection.propagateCellT draws) ({ s with generation := s.generation + 1 }, k, []) := rfl
  have h1 : (Infection.propagateRound draws (s, k)).1 =
      (Infection.propagateRoundT draws (s, k, [])).1 := by
    rw [← Infection.propagateRoundT_agree draws s k []]
  constructor
  · intro tq htq
    refine hfold.2.2.1 tq ?_
    rw [hrw] at htq
    exact htq
  · intro q hq
    rw [h1, hrw] at hq
    obtain ⟨t, ht, hts⟩ := hfold.2.2.2 q hq
    refine ⟨t, ?_, hts⟩
    rw [hrw]
    exact ht

/-- A 1×4 state with cell 1 seeded (generation 0), about to run round 1 with
`risk = 1`. -/
def c8State : Infection :=
  { Infection.init 1 4 0 1 1 with infected := Function.update (fun _ => none) 1 (some 0) }

/-- C8 witness: in the concrete round over `c8State`, the attempt `(1, 2)` is
recorded, and the theorem yields that its transmitter, cell 1, was infected
before the round. -/
theorem c8_no_cascade_within_round_witness : c8State.infected 1 ≠ none :=
  (c8_no_cascade_within_round zeroDraws c8State 0).1 (1, 2) (by decide)

theorem Infection.mem_spawnPool (s : Infection) (q : Nat) :
    q ∈ Infection.spawnPool s ↔ q < s.size ∧ q ≠ 0 ∧ q ≠ s.size - 1 := by
  simp [Infection.spawnPool, List.mem_filter]

theorem Infection.spawnPool_nodup (s : Infection) : (Infection.spawnPool s).Nodup :=
  List.Nodup.filter _ (List.nodup_range _)

theorem Infection.removeElem_mem {l : List Nat} {x q : Nat}
    (h : q ∈ Infection.removeElem l x) : q ∈ l ∧ q ≠ x := by
  have := List.mem_filter.mp h
  exact ⟨this.1, by simpa using this.2⟩

theorem Infection.removeElem_nodup {l : List Nat} (x : Nat) (h : l.Nodup) :
    (Infection.removeElem l x).Nodup :=
  List.Nodup.filter _ h

theorem Infection.removeElem_length {l : List Nat} {x : Nat} (hx : x ∈ l) (hnd : l.Nodup) :
    (Infection.removeElem l x).length + 1 = l.length := by
  induction l with
  | nil => cases hx
  | cons a t ih =>
    by_cases hax : a = x
    · subst hax
      have hxt : a ∉ t := (List.nodup_cons.mp hnd).1
      have : Infection.removeElem (a :: t) a = t := by
        simp only [Infection.removeElem, List.filter_cons]
        rw [if_neg (by simp)]
        exact List.filter_eq_self.mpr (fun b hb => by
          simp only [decide_eq_true_iff]
          exact fun hba => hxt (hba ▸ hb))
      rw [this]
      simp
    · have hxt : x ∈ t := by
        rcases List.mem_cons.mp hx with h | h
        · exact absurd h.symm hax
        · exact h
      have : Infection.removeElem (a :: t) x = a :: Infection.removeElem t x := by
        simp only [Infection.removeElem, List.filter_cons]
        rw [if_pos (by simpa using hax)]
      rw [this]
      simp only [List.length_cons]
      rw [ih hxt (List.nodup_cons.mp hnd).2]

theorem Infection.removeElem_length_lt {l : List Nat} {x : Nat} (hx : x ∈ l) :
    (Infection.removeElem l x).length < l.length := by
  induction l with
  | nil => cases hx
  | cons a t ih =>
    by_cases hax : a = x
    · subst hax
      simp only [Infection.removeElem, List.filter_cons]
      rw [if_neg (by simp)]
      have : (List.filter (fun y => decide (y ≠ a)) t).length ≤ t.length :=
        List.length_filter_le _ _
      simp only [Infection.removeElem] at this ⊢
      simpa using Nat.lt_succ_of_le this
    · have hxt : x ∈ t := by
        rcases List.mem_cons.mp hx with h | h
        · exact absurd h.symm hax
        · exact h
      simp only [Infection.removeElem, List.filter_cons]
      rw [if_pos (by simpa using hax)]
      simpa only [List.length_cons] using Nat.succ_lt_succ (ih hxt)

/-- A successful `infect` with the seeding probability `1`. -/
theorem Infection.infect_one (draws : Nat → ℚ) (p : Infection × Nat) (pos : Nat)
    (hd : draws p.2 ≤ 1) (h0 : pos ≠ 0) (h1 : pos ≠ p.1.size - 1) :
    Infection.infect draws p pos (some 1) =
      ({ p.1 with infected := Function.update p.1.infected pos (some p.1.generation) },
        p.2 + 1) := by
  simp only [Infection.infect]
  rw [if_pos ⟨by simpa using hd, h0, h1⟩]

/-- Newly infecting one in-range uninfected cell raises the infected count by
exactly one. -/
theorem Infection.countInfected_update (s : Infection) (pos : Nat) (hpos : pos < s.size)
    (hnone : s.infected pos = none) (g : Nat) :
    Infection.countInfected
        { s with infected := Function.update s.infected pos (some g) } =
      Infection.countInfected s + 1 := by
  have hset : (Finset.range s.size).filter
        (fun q => Function.update s.infected pos (some g) q ≠ none) =
      insert pos ((Finset.range s.size).filter (fun q => s.infected q ≠ none)) := by
    ext q
    by_cases hq : q = pos
    · subst hq
      simp [Finset.mem_filter, Finset.mem_range, hpos, Function.update]
    · simp only [Finset.mem_filter, Finset.mem_range, Finset.mem_insert]
      rw [Function.update_noteq hq]
      tauto
  have hnotmem : pos ∉ (Finset.range s.size).filter (fun q => s.infected q ≠ none) := by
    simp [Finset.mem_filter, hnone]
  simp only [Infection.countInfected]
  show ((Finset.range s.size).filter
      (fun q => Function.update s.infected pos (some g) q ≠ none)).card =
    ((Finset.range s.size).filter (fun q => s.infected q ≠ none)).card + 1
  rw [hset, Finset.card_insert_of_not_mem hnotmem]

/-- When the requested count fits in the pool, the seeding loop succeeds and
infects exactly `m` fresh pool cells, all at the current generation. -/
theorem Infection.spawnLoop_success (draws : Nat → ℚ) (chooser : Nat → Nat)
    (hd : ∀ i, 0 ≤ draws i ∧ draws i < 1) :
    ∀ (m : Nat) (pool : List Nat) (acc : Infection × Nat) (i : Nat),
      m ≤ pool.length → pool.Nodup →
      (∀ q ∈ pool, q < acc.1.size ∧ q ≠ 0 ∧ q ≠ acc.1.size - 1) →
      (∀ q ∈ pool, acc.1.infected q = none) →
      ∃ p2, Infection.spawnLoop draws chooser m pool acc i = some p2 ∧
        p2.1.rows = acc.1.rows ∧ p2.1.cols = acc.1.cols ∧
        p2.1.generation = acc.1.generation ∧ p2.2 = acc.2 + m ∧
        Infection.countInfected p2.1 = Infection.countInfected acc.1 + m ∧
        (∀ q, p2.1.infected q = acc.1.infected q ∨
          (q ∈ pool ∧ p2.1.infected q = some acc.1.generation)) := by
  intro m
  induction m with
  | zero =>
    intro pool acc i _ _ _ _
    exact ⟨acc, rfl, rfl, rfl, rfl, rfl, rfl, fun q => Or.inl rfl⟩
  | succ m ih =>
    intro pool acc i hm hnd hcond hnone
    have hne : pool ≠ [] := by
      intro h
      rw [h] at hm
      simp at hm
    have hlt : chooser i % pool.length < pool.length :=
      Nat.mod_lt _ (List.length_pos.mpr hne)
    set pos := pool.get ⟨chooser i % pool.length, hlt⟩ with hposdef
    have hposmem : pos ∈ pool := List.get_mem pool _ hlt
    have hpos := hcond pos hposmem
    have hinf : Infection.infect draws acc pos (some 1) =
        ({ acc.1 with infected := Function.update acc.1.infected pos (some acc.1.generation) },
          acc.2 + 1) :=
      Infection.infect_one draws acc pos (le_of_lt (hd acc.2).2) hpos.2.1 hpos.2.2
    set acc2 : Infection × Nat :=
      ({ acc.1 with infected := Function.update acc.1.infected pos (some acc.1.generation) },
        acc.2 + 1) with hacc2
    have hlen2 : m ≤ (Infection.removeElem pool pos).length := by
      have := Infection.removeElem_length hposmem hnd
      omega
    have hnd2 : (Infection.removeElem pool pos).Nodup := Infection.removeElem_nodup _ hnd
    have hcond2 : ∀ q ∈ Infection.removeElem pool pos,
        q < acc2.1.size ∧ q ≠ 0 ∧ q ≠ acc2.1.size - 1 := by
      intro q hq
      exact hcond q (Infection.removeElem_mem hq).1
    have hnone2 : ∀ q ∈ Infection.removeElem pool pos, acc2.1.infected q = none := by
      intro q hq
      obtain ⟨hql, hqx⟩ := Infection.removeElem_mem hq
      show Function.update acc.1.infected pos (some acc.1.generation) q = none
      rw [Function.update_noteq hqx]
      exact hnone q hql
    obtain ⟨p2, hp2, hrw, hcl, hgen, hk, hcount, hmem⟩ :=
      ih (Infection.removeElem pool pos) acc2 (i + 1) hlen2 hnd2 hcond2 hnone2
    have hacck : acc2.2 = acc.2 + 1 := rfl
    have hcnt2 : Infection.countInfected acc2.1 = Infection.countInfected acc.1 + 1 :=
      Infection.countInfected_update acc.1 pos hpos.1 (hnone pos hposmem) acc.1.generation
    refine ⟨p2, ?_, hrw, hcl, hgen, ?_, ?_, ?_⟩
    · show Infection.spawnLoop draws chooser (m + 1) pool acc i = some p2
      simp only [Infection.spawnLoop]
      rw [dif_neg hne, ← hposdef, hinf]
      exact hp2
    · rw [hk, hacck]
      omega
    · rw [hcount, hcnt2]
      omega
    · intro q
      rcases hmem q with h1 | ⟨hql, h2⟩
      · by_cases hq : q = pos
        · right
          refine ⟨hq ▸ hposmem, ?_⟩
          rw [h1]
          show Function.update acc.1.infected pos (some acc.1.generation) q = _
          rw [hq]
          simp [Function.update]
        · left
          rw [h1]
          show Function.update acc.1.infected pos (some acc.1.generation) q = _
          rw [Function.update_noteq hq]
      · right
        exact ⟨(Infection.removeElem_mem hql).1, h2⟩

/-- When the requested count exceeds the pool, the loop exhausts the pool and
fails (the Python `random.choice` raises `IndexError`). -/
theorem Infection.spawnLoop_overflow (draws : Nat → ℚ) (chooser : Nat → Nat) :
    ∀ (m : Nat) (pool : List Nat) (acc : Infection × Nat) (i : Nat),
      pool.length < m → Infection.spawnLoop draws chooser m pool acc i = none := by
  intro m
  induction m with
  | zero =>
    intro pool acc i h
    exact absurd h (Nat.not_lt_zero _)
  | succ m ih =>
    intro pool acc i h
    by_cases hne : pool = []
    · simp only [Infection.spawnLoop]
      rw [dif_pos hne]
    · simp only [Infection.spawnLoop]
      rw [dif_neg hne]
      refine ih _ _ _ ?_
      refine Nat.lt_of_lt_of_le (Infection.removeElem_length_lt (List.get_mem pool _ _)) ?_
      omega

/-- C7 amended: for samples in `[0,1)`, seeding with count
`floor(size * seed)` at most the eligible-pool size succeeds, infecting
exactly that many distinct non-corner pool cells, each at generation 0 (and
consuming exactly one sample per cell); when the count exceeds the pool
size, seeding does not cap — it fails (`IndexError` in the source, `none`
here). -/
theorem c7_spawn_amended (rows cols : Nat) (seed risk : ℚ) (its : Nat)
    (draws : Nat → ℚ) (chooser : Nat → Nat)
    (hd : ∀ i, 0 ≤ draws i ∧ draws i < 1) :
    (Nat.floor (((Infection.init rows cols seed risk its).size : ℚ) * seed) ≤
        (Infection.spawnPool (Infection.init rows cols seed risk its)).length →
      ∃ p, Infection.spawn draws chooser (Infection.init rows cols seed risk its, 0) = some p ∧
        p.2 = Nat.floor (((Infection.init rows cols seed risk its).size : ℚ) * seed) ∧
        Infection.countInfected p.1 =
          Nat.floor (((Infection.init rows cols seed risk its).size : ℚ) * seed) ∧
        (∀ q, p.1.infected q = none ∨
          (q ∈ Infection.spawnPool (Infection.init rows cols seed risk its) ∧
            p.1.infected q = some 0)) ∧
        p.1.infected 0 = none ∧ p.1.infected (rows * cols - 1) = none) ∧
    ((Infection.spawnPool (Infection.init rows cols seed risk its)).length <
        Nat.floor (((Infection.init rows cols seed risk its).size : ℚ) * seed) →
      Infection.spawn draws chooser (Infection.init rows cols seed risk its, 0) = none) := by
  set st0 := Infection.init rows cols seed risk its with hst0
  have hpool : ∀ q ∈ Infection.spawnPool st0, q < st0.size ∧ q ≠ 0 ∧ q ≠ st0.size - 1 :=
    fun q hq => (Infection.mem_spawnPool st0 q).mp hq
  constructor
  · intro hle
    obtain ⟨p, hp, hrw, hcl, hgen, hk, hcount, hmem⟩ :=
      Infection.spawnLoop_success draws chooser hd
        (Nat.floor ((st0.size : ℚ) * seed)) (Infection.spawnPool st0) (st0, 0) 0 hle
        (Infection.spawnPool_nodup st0) hpool (fun q _ => rfl)
    have hspawn : Infection.spawn draws chooser (st0, 0) = some p := by
      rw [← hp]
      rfl
    have hcnt0 : Infection.countInfected st0 = 0 := by
      simp [Infection.countInfected, hst0, Infection.init]
    have hmem0 : ∀ q, p.1.infected q = none ∨
        (q ∈ Infection.spawnPool st0 ∧ p.1.infected q = some 0) := by
      intro q
      rcases hmem q with h1 | ⟨hql, h2⟩
      · left
        rw [h1]
        rfl
      · right
        exact ⟨hql, h2⟩
    refine ⟨p, hspawn, by simp [hk], by simp [hcount, hcnt0], hmem0, ?_, ?_⟩
    · rcases hmem0 0 with h | ⟨hq, _⟩
      · exact h
      · exact absurd ((Infection.mem_spawnPool st0 0).mp hq).2.1 (by simp)
    · rcases hmem0 (rows * cols - 1) with h | ⟨hq, _⟩
      · exact h
      · have := ((Infection.mem_spawnPool st0 (rows * cols - 1)).mp hq).2.2
        exact absurd rfl this
  · intro hgt
    show Infection.spawnLoop draws chooser (Nat.floor ((st0.size : ℚ) * st0.seed))
        (Infection.spawnPool st0) (st0, 0) 0 = none
    exact Infection.spawnLoop_overflow draws chooser _ _ _ _ hgt

/-- C7 witness: `rows=1, cols=4, seed=1/2` — the count `floor(4·(1/2)) = 2`
fits the two-cell pool, and exactly two distinct non-corner cells are seeded
at generation 0. -/
theorem c7_spawn_amended_witness :
    ∃ p, Infection.spawn zeroDraws zeroChooser (Infection.init 1 4 (1/2) 1 0, 0) = some p ∧
      p.2 = Nat.floor (((Infection.init 1 4 (1/2) 1 0).size : ℚ) * (1/2)) ∧
      Infection.countInfected p.1 =
        Nat.floor (((Infection.init 1 4 (1/2) 1 0).size : ℚ) * (1/2)) ∧
      (∀ q, p.1.infected q = none ∨
        (q ∈ Infection.spawnPool (Infection.init 1 4 (1/2) 1 0) ∧
          p.1.infected q = some 0)) ∧
      p.1.infected 0 = none ∧ p.1.infected (1 * 4 - 1) = none := by
  refine (c7_spawn_amended 1 4 (1/2) 1 0 zeroDraws zeroChooser ?_).1 ?_
  · intro i
    constructor <;> norm_num [zeroDraws]
  · have h2 : Nat.floor (((Infection.init 1 4 (1/2) 1 0).size : ℚ) * (1/2)) = 2 := by
      norm_num [Infection.init, Infection.size]
    rw [h2]
    decide

/-- If the neighbour loop finishes without hitting the goal, the queue got
one `path ++ [n]` entry per neighbour, in order, and the goal was not among
them. -/
theorem Infection.expandLoop_inl (goal : Nat) (path : List Nat) :
    ∀ (ns : List Nat) (acc q2 : List (List Nat)),
      Infection.expandLoop goal path ns acc = Sum.inl q2 →
      q2 = acc ++ ns.map (fun n => path ++ [n]) ∧ goal ∉ ns := by
  intro ns
  induction ns with
  | nil =>
    intro acc q2 h
    simp only [Infection.expandLoop, Sum.inl.injEq] at h
    simp [← h]
  | cons n t ih =>
    intro acc q2 h
    simp only [Infection.expandLoop] at h
    by_cases hn : n = goal
    · rw [if_pos hn] at h
      cases h
    · rw [if_neg hn] at h
      obtain ⟨h1, h2⟩ := ih _ _ h
      constructor
      · rw [h1]
        simp
      · simp only [List.mem_cons]
        rintro (hg | hg)
        · exact hn hg.symm
        · exact h2 hg

/-- If the neighbour loop returns a path, it is `path ++ [goal]` and the goal
was among the neighbours. -/
theorem Infection.expandLoop_inr (goal : Nat) (path : List Nat) :
    ∀ (ns : List Nat) (acc : List (List Nat)) (r : List Nat),
      Infection.expandLoop goal path ns acc = Sum.inr r →
      r = path ++ [goal] ∧ goal ∈ ns := by
  intro ns
  induction ns with
  | nil =>
    intro acc r h
    simp only [Infection.expandLoop] at h
    cases h
  | cons n t ih =>
    intro acc r h
    simp only [Infection.expandLoop] at h
    by_cases hn : n = goal
    · rw [if_pos hn] at h
      injection h with h
      subst hn
      exact ⟨h.symm, List.mem_cons_self _ _⟩
    · rw [if_neg hn] at h
      obtain ⟨h1, h2⟩ := ih _ _ h
      exact ⟨h1, List.mem_cons_of_mem _ h2⟩

/-- Membership in the adjacency list: both endpoints uninfected and a grid
neighbour. -/
theorem Infection.mem_adjacency {s : Infection} {a b : Nat} :
    b ∈ s.adjacency_list a ↔
      s.infected a = none ∧ b ∈ s.neighbourIds a ∧ s.infected b = none := by
  simp only [Infection.adjacency_list]
  by_cases h : s.infected a = none
  · rw [if_pos h]
    simp [List.mem_filter, h, Option.isNone_iff_eq_none, and_comm]
  · rw [if_neg h]
    simp [h]

theorem Infection.GPath.ne_nil {s : Infection} {p : List Nat} (h : s.GPath p) : p ≠ [] := by
  intro hnil
  rw [hnil] at h
  cases h.1

/-- Extending a search path by an adjacency-list edge. -/
theorem Infection.GPath.snoc {s : Infection} {p : List Nat} {c n : Nat} (h : s.GPath p)
    (hl : p.getLast? = some c) (hn : n ∈ s.adjacency_list c) : s.GPath (p ++ [n]) := by
  constructor
  · rw [List.head?_append_of_ne_nil _ h.ne_nil]
    exact h.1
  · rw [List.chain'_append]
    refine ⟨h.2, List.chain'_singleton _, ?_⟩
    intro x hx y hy
    rw [hl] at hx
    injection hx with hx
    simp only [List.head?_cons, Option.mem_def, Option.some.injEq] at hy
    rw [← hx, ← hy]
    exact hn

/-- The head of a search path is cell 0. -/
theorem Infection.GPath.get_zero {s : Infection} {p : List Nat} (h : s.GPath p)
    (hp : 0 < p.length) : p.get ⟨0, hp⟩ = 0 := by
  cases p with
  | nil => cases h.1
  | cons a t =>
    have := h.1
    simp only [List.head?_cons, Option.some.injEq] at this
    simpa using this

/-- Consecutive entries of a search path are adjacency-list edges. -/
theorem Infection.GPath.edge {s : Infection} {p : List Nat} (h : s.GPath p) (i : Nat)
    (hi : i + 1 < p.length) :
    p.get ⟨i + 1, hi⟩ ∈ s.adjacency_list (p.get ⟨i, Nat.lt_of_succ_lt hi⟩) := by
  have hg := List.chain'_iff_get.mp h.2 i (by omega)
  exact hg

/-- Every cell of a search path with at least one edge is uninfected. -/
theorem Infection.GPath.all_uninfected {s : Infection} {p : List Nat} (h : s.GPath p)
    (hlen : 2 ≤ p.length) : ∀ c ∈ p, s.infected c = none := by
  intro c hc
  obtain ⟨⟨i, hi⟩, rfl⟩ := List.mem_iff_get.mp hc
  cases i with
  | zero => exact (Infection.mem_adjacency.mp (h.edge 0 (by omega))).1
  | succ j => exact (Infection.mem_adjacency.mp (h.edge j hi)).2.2

/-- On a grid with at least two cells, the specification's route notion is a
search path ending at the goal. -/
theorem Infection.isRoute_iff (s : Infection) (hsz : 2 ≤ s.size) (q : List Nat) :
    s.IsRoute q ↔ s.GPath q ∧ q.getLast? = some (s.size - 1) := by
  constructor
  · rintro ⟨h1, h2, h3, h4⟩
    refine ⟨⟨h1, ?_⟩, h2⟩
    rw [List.chain'_iff_get] at h3 ⊢
    intro i hi
    refine Infection.mem_adjacency.mpr ⟨?_, h3 i hi, ?_⟩
    · exact h4 _ (List.get_mem _ _ _)
    · exact h4 _ (List.get_mem _ _ _)
  · rintro ⟨hg, hlast⟩
    have hne := hg.ne_nil
    have hlen2 : 2 ≤ q.length := by
      by_contra hlt
      push_neg at hlt
      have h1 : q.length = 1 := by
        have := List.length_pos.mpr hne
        omega
      obtain ⟨x, rfl⟩ := List.length_eq_one.mp h1
      have hx0 : x = 0 := by
        have := hg.1
        simpa using this
      have hxg : x = s.size - 1 := by simpa using hlast
      omega
    refine ⟨hg.1, hlast, ?_, hg.all_uninfected hlen2⟩
    rw [List.chain'_iff_get]
    intro i hi
    exact (Infection.mem_adjacency.mp (List.chain'_iff_get.mp hg.2 i hi)).2.1

/-- The BFS queue invariant: every queued entry is a search path; queue
lengths are sorted and within one of each other; no queued path (and no
visited cell) has reached the goal. -/
def Infection.QInv (s : Infection) (goal : Nat) (queue : List (List Nat))
    (visited : List Nat) : Prop :=
  (∀ p ∈ queue, s.GPath p) ∧
  List.Pairwise (fun p q : List Nat => p.length ≤ q.length) queue ∧
  (∀ p ∈ queue, ∀ q ∈ queue, p.length ≤ q.length + 1) ∧
  (∀ p ∈ queue, p.getLast? ≠ some goal) ∧
  goal ∉ visited

/-- The BFS covering invariant: every search path `z` with an unvisited
endpoint has, at some position `j` of `z` after which `z` is wholly
unvisited, a queued path to `z`'s cell at `j` of length at most `j + 1`. -/
def Infection.Cov (s : Infection) (queue : List (List Nat)) (visited : List Nat) : Prop :=
  ∀ z : List Nat, s.GPath z → ∀ w, z.getLast? = some w → w ∉ visited →
    ∃ j, ∃ hj : j < z.length, ∃ p, p ∈ queue ∧
      p.getLast? = some (z.get ⟨j, hj⟩) ∧ p.length ≤ j + 1 ∧
      ∀ t (ht : t < z.length), j ≤ t → z.get ⟨t, ht⟩ ∉ visited

/-- Popping a path whose endpoint is already visited preserves both
invariants. -/
theorem Infection.inv_pop_visited {s : Infection} {goal : Nat} {path : List Nat}
    {rest : List (List Nat)} {visited : List Nat} {cell : Nat}
    (hq : Infection.QInv s goal (path :: rest) visited)
    (hcov : Infection.Cov s (path :: rest) visited)
    (hlast : path.getLast? = some cell) (hcell : cell ∈ visited) :
    Infection.QInv s goal rest visited ∧ Infection.Cov s rest visited := by
  obtain ⟨hA, hS, hB, hE, hgv⟩ := hq
  refine ⟨⟨fun p hp => hA p (List.mem_cons_of_mem _ hp),
    (List.pairwise_cons.mp hS).2,
    fun p hp q hq2 => hB p (List.mem_cons_of_mem _ hp) q (List.mem_cons_of_mem _ hq2),
    fun p hp => hE p (List.mem_cons_of_mem _ hp), hgv⟩, ?_⟩
  intro z hz w hw hwv
  obtain ⟨j, hj, p, hpmem, hplast, hplen, hsuf⟩ := hcov z hz w hw hwv
  refine ⟨j, hj, p, ?_, hplast, hplen, hsuf⟩
  rcases List.mem_cons.mp hpmem with rfl | hm
  · exfalso
    rw [hlast] at hplast
    injection hplast with hcz
    exact (hsuf j hj le_rfl) (hcz ▸ hcell)
  · exact hm

/-- Expanding an unvisited endpoint (goal not among its neighbours) preserves
both invariants. -/
theorem Infection.inv_expand {s : Infection} {goal : Nat} {path : List Nat}
    {rest : List (List Nat)} {visited : List Nat} {cell : Nat}
    (hq : Infection.QInv s goal (path :: rest) visited)
    (hcov : Infection.Cov s (path :: rest) visited)
    (hlast : path.getLast? = some cell) (hcell : cell ∉ visited)
    (hgoal : goal ∉ s.adjacency_list cell) :
    Infection.QInv s goal (rest ++ (s.adjacency_list cell).map (fun n => path ++ [n]))
        (visited ++ [cell]) ∧
      Infection.Cov s (rest ++ (s.adjacency_list cell).map (fun n => path ++ [n]))
        (visited ++ [cell]) := by
  obtain ⟨hA, hS, hB, hE, hgv⟩ := hq
  have hApath : s.GPath path := hA path (List.mem_cons_self _ _)
  have hheadmin : ∀ p ∈ rest, path.length ≤ p.length := (List.pairwise_cons.mp hS).1
  have hnews_len : ∀ p ∈ (s.adjacency_list cell).map (fun n => path ++ [n]),
      p.length = path.length + 1 := by
    intro p hp
    obtain ⟨n, hn, rfl⟩ := List.mem_map.mp hp
    simp
  have hnews_gpath : ∀ p ∈ (s.adjacency_list cell).map (fun n => path ++ [n]), s.GPath p := by
    intro p hp
    obtain ⟨n, hn, rfl⟩ := List.mem_map.mp hp
    exact hApath.snoc hlast hn
  have hcellgoal : cell ≠ goal := by
    intro h
    exact hE path (List.mem_cons_self _ _) (by rw [hlast, h])
  constructor
  · refine ⟨?_, ?_, ?_, ?_, ?_⟩
    · intro p hp
      rcases List.mem_append.mp hp with h | h
      · exact hA p (List.mem_cons_of_mem _ h)
      · exact hnews_gpath p h
    · refine List.pairwise_append.mpr ⟨(List.pairwise_cons.mp hS).2, ?_, ?_⟩
      · refine List.pairwise_of_forall_mem_list ?_
        intro a ha b hb
        rw [hnews_len a ha, hnews_len b hb]
      · intro a ha b hb
        rw [hnews_len b hb]
        exact hB a (List.mem_cons_of_mem _ ha) path (List.mem_cons_self _ _)
    · intro p hp q hq2
      rcases List.mem_append.mp hp with h1 | h1 <;> rcases List.mem_append.mp hq2 with h2 | h2
      · exact hB p (List.mem_cons_of_mem _ h1) q (List.mem_cons_of_mem _ h2)
      · have ha := hB p (List.mem_cons_of_mem _ h1) path (List.mem_cons_self _ _)
        rw [hnews_len q h2]
        omega
      · have ha := hheadmin q h2
        rw [hnews_len p h1]
        omega
      · rw [hnews_len p h1, hnews_len q h2]
        omega
    · intro p hp
      rcases List.mem_append.mp hp with h | h
      · exact hE p (List.mem_cons_of_mem _ h)
      · obtain ⟨n, hn, rfl⟩ := List.mem_map.mp h
        rw [List.getLast?_concat]
        intro hcon
        injection hcon with hcon
        exact hgoal (hcon ▸ hn)
    · intro hcon
      rcases List.mem_append.mp hcon with h | h
      · exact hgv h
      · exact hcellgoal (List.mem_singleton.mp h).symm
  · intro z hz w hw hwv2
    have hwv : w ∉ visited := fun h => hwv2 (List.mem_append_left _ h)
    have hwc : w ≠ cell := by
      intro h
      exact hwv2 (List.mem_append_right _ (by simp [h]))
    obtain ⟨j, hj, p, hpmem, hplast, hplen, hsuf⟩ := hcov z hz w hw hwv
    have hzne : z ≠ [] := hz.ne_nil
    have hlen0 : z.length - 1 < z.length := by
      have := List.length_pos.mpr hzne
      omega
    have hlastidx : z.getLast? = some (z.get ⟨z.length - 1, hlen0⟩) := by
      rw [List.getLast?_eq_getLast z hzne]
      congr 1
      exact List.getLast_eq_get z hzne
    have hwget : z.get ⟨z.length - 1, hlen0⟩ = w := by
      rw [hlastidx] at hw
      injection hw
    by_cases hex : ∃ t, j ≤ t ∧ z.get? t = some cell
    · obtain ⟨t1, hjt1, ht1⟩ := hex
      have ht1len : t1 < z.length := (List.get?_eq_some.mp ht1).choose
      have ht1le : t1 ≤ z.length - 1 := by omega
      have hPt0 : j ≤ Nat.findGreatest (fun t => j ≤ t ∧ z.get? t = some cell) (z.length - 1) ∧
          z.get? (Nat.findGreatest (fun t => j ≤ t ∧ z.get? t = some cell) (z.length - 1)) =
            some cell :=
        @Nat.findGreatest_spec t1 (fun t => j ≤ t ∧ z.get? t = some cell) _ (z.length - 1)
          ht1le ⟨hjt1, ht1⟩
      set t0 := Nat.findGreatest (fun t => j ≤ t ∧ z.get? t = some cell) (z.length - 1)
        with ht0def
      have hjt0 : j ≤ t0 := hPt0.1
      have ht0cell : z.get? t0 = some cell := hPt0.2
      have ht0len : t0 < z.length := (List.get?_eq_some.mp ht0cell).choose
      have ht0get : z.get ⟨t0, ht0len⟩ = cell := by
        rw [List.get?_eq_get ht0len] at ht0cell
        injection ht0cell
      have hmax : ∀ k, t0 < k → k ≤ z.length - 1 →
          ¬(j ≤ k ∧ z.get? k = some cell) :=
        fun k hk1 hk2 => Nat.findGreatest_is_greatest hk1 hk2
      have ht0ne : t0 ≠ z.length - 1 := by
        intro h
        apply hwc
        rw [← hwget, show (⟨z.length - 1, hlen0⟩ : Fin z.length) = ⟨t0, ht0len⟩ from by
          rw [Fin.mk_eq_mk]
          exact h.symm]
        exact ht0get
      have ht0lt : t0 + 1 < z.length := by omega
      have hedge : z.get ⟨t0 + 1, ht0lt⟩ ∈ s.adjacency_list cell := by
        have he := hz.edge t0 ht0lt
        have ht0get2 : z.get ⟨t0, Nat.lt_of_succ_lt ht0lt⟩ = cell := ht0get
        rw [ht0get2] at he
        exact he
      refine ⟨t0 + 1, ht0lt, path ++ [z.get ⟨t0 + 1, ht0lt⟩], ?_, ?_, ?_, ?_⟩
      · exact List.mem_append_right _ (List.mem_map.mpr ⟨_, hedge, rfl⟩)
      · exact List.getLast?_concat _
      · have hple : path.length ≤ p.length := by
          rcases List.mem_cons.mp hpmem with rfl | hm
          · exact le_refl _
          · exact hheadmin p hm
        have h1 : (path ++ [z.get ⟨t0 + 1, ht0lt⟩]).length = path.length + 1 := by simp
        rw [h1]
        omega
      · intro t ht htge hmem2
        rcases List.mem_append.mp hmem2 with h | h
        · exact hsuf t ht (by omega) h
        · have hcc : z.get ⟨t, ht⟩ = cell := List.mem_singleton.mp h
          exact hmax t (by omega) (by omega)
            ⟨by omega, by rw [List.get?_eq_get ht, hcc]⟩
    · push_neg at hex
      have hpne : p ≠ path := by
        intro h
        rw [h, hlast] at hplast
        injection hplast with hc2
        exact hex j le_rfl (by rw [List.get?_eq_get hj, ← hc2])
      have hpm2 : p ∈ rest := by
        rcases List.mem_cons.mp hpmem with h | h
        · exact absurd h hpne
        · exact h
      refine ⟨j, hj, p, List.mem_append_left _ hpm2, hplast, hplen, ?_⟩
      intro t ht htge hmem2
      rcases List.mem_append.mp hmem2 with h | h
      · exact hsuf t ht htge h
      · exact hex t htge (by rw [List.get?_eq_get ht, List.mem_singleton.mp h])

/-- When the goal turns up among the neighbours of the popped path's
endpoint, the returned path `path ++ [goal]` is no longer than any search
path reaching the goal. -/
theorem Infection.return_min {s : Infection} {goal : Nat} {path : List Nat}
    {rest : List (List Nat)} {visited : List Nat}
    (hq : Infection.QInv s goal (path :: rest) visited)
    (hcov : Infection.Cov s (path :: rest) visited) :
    ∀ z, s.GPath z → z.getLast? = some goal → path.length + 1 ≤ z.length := by
  obtain ⟨hA, hS, hB, hE, hgv⟩ := hq
  intro z hz hzl
  obtain ⟨j, hj, p, hpmem, hplast, hplen, hsuf⟩ := hcov z hz goal hzl hgv
  have hple : path.length ≤ p.length := by
    rcases List.mem_cons.mp hpmem with rfl | hm
    · exact le_refl _
    · exact (List.pairwise_cons.mp hS).1 p hm
  have hzne : z ≠ [] := hz.ne_nil
  have hlen0 : z.length - 1 < z.length := by
    have := List.length_pos.mpr hzne
    omega
  have hlastidx : z.getLast? = some (z.get ⟨z.length - 1, hlen0⟩) := by
    rw [List.getLast?_eq_getLast z hzne]
    congr 1
    exact List.getLast_eq_get z hzne
  by_cases hjl : j = z.length - 1
  · exfalso
    rw [hlastidx] at hzl
    injection hzl with hzl2
    apply hE p hpmem
    rw [hplast]
    congr 1
    rw [show (⟨j, hj⟩ : Fin z.length) = ⟨z.length - 1, hlen0⟩ from by
      rw [Fin.mk_eq_mk]
      exact hjl]
    exact hzl2
  · have hp1 : p.length ≤ j + 1 := hplen
    omega

/-- The initial BFS state (queue `[[0]]`, nothing visited) satisfies both
invariants on any grid with at least two cells. -/
theorem Infection.inv_init (s : Infection) (hsz : 2 ≤ s.size) :
    Infection.QInv s (s.size - 1) [[0]] [] ∧ Infection.Cov s [[0]] [] := by
  constructor
  · refine ⟨?_, ?_, ?_, ?_, ?_⟩
    · intro p hp
      rw [List.mem_singleton.mp hp]
      exact ⟨rfl, List.chain'_singleton _⟩
    · exact List.pairwise_singleton _ _
    · intro p hp q hq
      rw [List.mem_singleton.mp hp, List.mem_singleton.mp hq]
      omega
    · intro p hp
      rw [List.mem_singleton.mp hp]
      intro hcon
      simp only [List.getLast?_singleton, Option.some.injEq] at hcon
      omega
    · simp
  · intro z hz w hw hwv
    have hzlen : 0 < z.length := List.length_pos.mpr hz.ne_nil
    refine ⟨0, hzlen, [0], List.mem_singleton.mpr rfl, ?_, by simp, ?_⟩
    · rw [hz.get_zero hzlen]
      rfl
    · intro t ht hge
      simp

/-- Main BFS lemma: with both invariants holding, any route returned by the
search loop is a search path from the start to the goal of minimal length
among all search paths reaching the goal. -/
theorem Infection.bfsAux_correct (s : Infection) :
    ∀ (fuel : Nat) (queue : List (List Nat)) (visited : List Nat),
      Infection.QInv s (s.size - 1) queue visited →
      Infection.Cov s queue visited →
      ∀ p, Infection.bfsAux s (s.size - 1) fuel queue visited = some p →
        s.GPath p ∧ p.getLast? = some (s.size - 1) ∧
        ∀ z, s.GPath z → z.getLast? = some (s.size - 1) → p.length ≤ z.length := by
  intro fuel
  induction fuel with
  | zero =>
    intro queue visited _ _ p h
    cases h
  | succ fuel ih =>
    intro queue visited hq hcov p h
    cases queue with
    | nil => cases h
    | cons path rest =>
      simp only [Infection.bfsAux] at h
      cases hlast : path.getLast? with
      | none =>
        rw [hlast] at h
        replace h : (none : Option (List Nat)) = some p := h
        cases h
      | some cell =>
        rw [hlast] at h
        replace h : (if cell ∈ visited then
              Infection.bfsAux s (s.size - 1) fuel rest visited
            else
              match Infection.expandLoop (s.size - 1) path (s.adjacency_list cell) rest with
              | Sum.inr found => some found
              | Sum.inl q2 => Infection.bfsAux s (s.size - 1) fuel q2 (visited ++ [cell])) =
            some p := h
        by_cases hv : cell ∈ visited
        · rw [if_pos hv] at h
          obtain ⟨hq2, hcov2⟩ := Infection.inv_pop_visited hq hcov hlast hv
          exact ih rest visited hq2 hcov2 p h
        · rw [if_neg hv] at h
          cases hexp : Infection.expandLoop (s.size - 1) path (s.adjacency_list cell) rest with
          | inr found =>
            rw [hexp] at h
            injection h with h
            obtain ⟨hfound, hgmem⟩ := Infection.expandLoop_inr _ _ _ _ _ hexp
            subst h
            subst hfound
            have hApath : s.GPath path := hq.1 path (List.mem_cons_self _ _)
            refine ⟨hApath.snoc hlast hgmem, List.getLast?_concat _, ?_⟩
            intro z hz hzl
            have hmin := Infection.return_min hq hcov z hz hzl
            have hlenapp : (path ++ [s.size - 1]).length = path.length + 1 := by simp
            omega
          | inl q2 =>
            rw [hexp] at h
            obtain ⟨hq2eq, hgnot⟩ := Infection.expandLoop_inl _ _ _ _ _ hexp
            subst hq2eq
            obtain ⟨hq2, hcov2⟩ := Infection.inv_expand hq hcov hlast hv hgnot
            exact ih _ _ hq2 hcov2 p h

/-- On the 1×1 grid cell 0 has no neighbours, so the search dead-ends
immediately. -/
theorem Infection.bfs_one_cell (s : Infection) (h1 : s.rows = 1) (h2 : s.cols = 1) :
    Infection.bfs s = none := by
  have hsz : s.size = 1 := by simp [Infection.size, h1, h2]
  have hnb : s.neighbourIds 0 = [] := by
    simp [Infection.neighbourIds, Infection.get_neighbours, h2, hsz]
  have hadj : s.adjacency_list 0 = [] := by
    simp [Infection.adjacency_list, hnb]
  have hfuel : s.bfsFuel = 10 := by simp [Infection.bfsFuel, hsz]
  have hgoal : s.size - 1 = 0 := by omega
  rw [Infection.bfs, hfuel, hgoal]
  have e1 : Infection.bfsAux s 0 10 [[0]] [] =
      (match Infection.expandLoop 0 [0] (s.adjacency_list 0) [] with
        | Sum.inr found => some found
        | Sum.inl q2 => Infection.bfsAux s 0 9 q2 [0]) := rfl
  rw [e1, hadj]
  rfl

/-- C3: whenever `bfs` returns a route, the route starts at the start
corner, ends at the goal corner, steps only between 4-adjacent uninfected
cells, and no strictly shorter such route exists. -/
theorem c3_bfs_shortest_route (s : Infection) (hr : 0 < s.rows) (hc : 0 < s.cols)
    (p : List Nat) (h : Infection.bfs s = some p) :
    s.IsRoute p ∧ ∀ q, s.IsRoute q → p.length ≤ q.length := by
  have hsz1 : 1 ≤ s.size := Nat.mul_pos hr hc
  rcases eq_or_lt_of_le hsz1 with heq | hlt
  · exfalso
    have hone : s.rows = 1 ∧ s.cols = 1 := by
      have h11 : s.rows * s.cols = 1 := heq.symm
      exact mul_eq_one.mp h11
    rw [Infection.bfs_one_cell s hone.1 hone.2] at h
    cases h
  · have hsz : 2 ≤ s.size := hlt
    obtain ⟨hq0, hcov0⟩ := Infection.inv_init s hsz
    obtain ⟨hgp, hglast, hmin⟩ := Infection.bfsAux_correct s s.bfsFuel [[0]] [] hq0 hcov0 p h
    constructor
    · exact (Infection.isRoute_iff s hsz p).mpr ⟨hgp, hglast⟩
    · intro q hql
      obtain ⟨hq1, hq2⟩ := (Infection.isRoute_iff s hsz q).mp hql
      exact hmin q hq1 hq2

/-- C3 witness: the uninfected 1×5 grid, whose `bfs` route is `[0,1,2,3,4]`;
the theorem confirms it is a route and that no route has fewer than 5
cells. -/
theorem c3_bfs_shortest_route_witness :
    (Infection.init 1 5 0 0 0).IsRoute [0, 1, 2, 3, 4] ∧
      ∀ q, (Infection.init 1 5 0 0 0).IsRoute q →
        ([0, 1, 2, 3, 4] : List Nat).length ≤ q.length := by
  have h : Infection.bfs (Infection.init 1 5 0 0 0) = some [0, 1, 2, 3, 4] := by decide
  exact c3_bfs_shortest_route (Infection.init 1 5 0 0 0) (by decide) (by decide) _ h
